import Mathlib

/-!
Verification of the autogcm commit-message generator.

This file shallowly embeds the Go sources of the autogcm repository:

* `main.go` — the variant with the hand-written greedy line diff
  (`diffLines`, `generateUnifiedDiff`);
* the staged-diff builder variant (`getStagedDiff`, `shouldExcludeFile`,
  `getAddedPatch`, `getModifiedPatch`, `getDeletedPatch`, `truncatePatch`);
* the multi-backend message generator variant (`lazyGenerateCommitMessage`,
  `generateCommitMessage` post-processing, Groq model selection).

Go strings are modelled as Lean `String` (a wrapper around `List Char`);
`len` on a Go string counts UTF-8 bytes, modelled by `utf8Len`.  File-system
and network effects are passed in as explicit oracle functions.
-/

namespace Autogcm

/-! ## Go string primitives -/

/-- Byte length of a Go string: `len(s)` counts UTF-8 bytes. -/
def utf8Len (s : String) : Nat :=
  (s.data.map Char.utf8Size).sum

/-- The white-space predicate of Go's `unicode.IsSpace` (the characters with
Unicode property White_Space). -/
def goIsSpace (c : Char) : Bool :=
  c.val = 9 || c.val = 10 || c.val = 11 || c.val = 12 || c.val = 13 || c.val = 32 ||
  c.val = 0x85 || c.val = 0xA0 || c.val = 0x1680 ||
  (0x2000 ≤ c.val && c.val ≤ 0x200A) ||
  c.val = 0x2028 || c.val = 0x2029 || c.val = 0x202F || c.val = 0x205F || c.val = 0x3000

/-- Left trim at the character-list level. -/
def trimLChars (l : List Char) : List Char :=
  l.dropWhile goIsSpace

/-- Right trim at the character-list level. -/
def trimRChars (l : List Char) : List Char :=
  (l.reverse.dropWhile goIsSpace).reverse

/-- Go's `strings.TrimSpace`: drop leading and trailing white space. -/
def goTrimSpace (s : String) : String :=
  ⟨trimRChars (trimLChars s.data)⟩

/-- Go's `strings.HasPrefix`. -/
def goHasPre (s pre : String) : Bool :=
  pre.data.isPrefixOf s.data

/-- Go's `strings.HasSuffix`. -/
def goHasSuf (s suf : String) : Bool :=
  suf.data.isSuffixOf s.data

/-- Go's `strings.TrimPrefix`: remove `pre` once if it leads `s`. -/
def goTrimPre (s pre : String) : String :=
  if goHasPre s pre then ⟨s.data.drop pre.data.length⟩ else s

/-- Go's `strings.TrimSuffix`: remove `suf` once if it ends `s`. -/
def goTrimSuf (s suf : String) : String :=
  if goHasSuf s suf then ⟨s.data.take (s.data.length - suf.data.length)⟩ else s

/-- Go's `strings.Split(s, "\n")` at the character-list level.  Splitting the
empty string yields one empty field, as in Go. -/
def splitNlChars : List Char → List (List Char)
  | [] => [[]]
  | c :: cs =>
    if c = '\n' then [] :: splitNlChars cs
    else
      match splitNlChars cs with
      | [] => [[c]]
      | r :: rs => (c :: r) :: rs

/-- Go's `strings.Join(xs, "\n")` at the character-list level. -/
def joinNlChars : List (List Char) → List Char
  | [] => []
  | [x] => x
  | x :: y :: ys => x ++ '\n' :: joinNlChars (y :: ys)

/-- Go's `strings.Split(s, "\n")`. -/
def splitNl (s : String) : List String :=
  (splitNlChars s.data).map String.mk

/-- Go's `strings.Join(xs, "\n")`. -/
def joinNl (xs : List String) : String :=
  ⟨joinNlChars (xs.map String.data)⟩

/-- Sequential buffer writes: the concatenation of a list of strings, as a
Go `bytes.Buffer` accumulates `WriteString` calls. -/
def concatAll : List String → String
  | [] => ""
  | x :: xs => x ++ concatAll xs

theorem splitNlChars_ne_nil (l : List Char) : splitNlChars l ≠ [] := by
  induction l with
  | nil => simp [splitNlChars]
  | cons c cs ih =>
    unfold splitNlChars
    by_cases h : c = '\n'
    · simp [h]
    · simp only [h, if_false]
      cases splitNlChars cs with
      | nil => simp
      | cons r rs => simp

theorem joinNlChars_splitNlChars (l : List Char) :
    joinNlChars (splitNlChars l) = l := by
  induction l with
  | nil => rfl
  | cons c cs ih =>
    unfold splitNlChars
    by_cases h : c = '\n'
    · subst h
      simp only [if_pos rfl]
      cases hs : splitNlChars cs with
      | nil => exact absurd hs (splitNlChars_ne_nil cs)
      | cons r rs =>
        simp only [joinNlChars]
        rw [← hs, ih]
        rfl
    · simp only [h, if_false]
      cases hs : splitNlChars cs with
      | nil => exact absurd hs (splitNlChars_ne_nil cs)
      | cons r rs =>
        cases rs with
        | nil =>
          simp only [joinNlChars]
          have := ih
          rw [hs] at this
          simp only [joinNlChars] at this
          rw [this]
        | cons r2 rs2 =>
          simp only [joinNlChars]
          have := ih
          rw [hs] at this
          simp only [joinNlChars] at this
          rw [List.cons_append, this]

theorem joinNl_splitNl (s : String) : joinNl (splitNl s) = s := by
  cases s with
  | mk data =>
    show String.mk (joinNlChars (((splitNlChars data).map String.mk).map String.data)) = ⟨data⟩
    rw [List.map_map]
    have : (String.data ∘ String.mk) = id := rfl
    rw [this, List.map_id, joinNlChars_splitNlChars]

/-! ### Trim lemmas -/

theorem dropWhile_dropWhile {α : Type} (p : α → Bool) (l : List α) :
    List.dropWhile p (List.dropWhile p l) = List.dropWhile p l := by
  induction l with
  | nil => rfl
  | cons c cs ih =>
    by_cases h : p c
    · simp [List.dropWhile, h, ih]
    · simp [List.dropWhile, h]

theorem dropWhile_eq_cons_head_false {α : Type} {p : α → Bool} {l : List α}
    {c : α} {t : List α} (h : List.dropWhile p l = c :: t) : p c = false := by
  induction l with
  | nil => simp [List.dropWhile] at h
  | cons a as ih =>
    by_cases ha : p a
    · rw [List.dropWhile_cons_of_pos ha] at h
      exact ih h
    · rw [List.dropWhile_cons_of_neg ha] at h
      cases h
      simpa using ha

theorem trimRChars_cons_of_not_space {c : Char} (hc : goIsSpace c = false)
    (t : List Char) : trimRChars (c :: t) = c :: trimRChars t := by
  unfold trimRChars
  rw [List.reverse_cons, List.dropWhile_append]
  by_cases h : (List.dropWhile goIsSpace t.reverse).isEmpty
  · simp only [h, if_pos]
    simp [List.dropWhile, hc, List.isEmpty_iff.mp h]
  · simp only [h, if_neg, Bool.false_eq_true, not_false_iff]
    simp [List.isEmpty_iff] at h
    simp [List.reverse_append]

theorem trimL_trimR_trimL (l : List Char) :
    trimLChars (trimRChars (trimLChars l)) = trimRChars (trimLChars l) := by
  cases h : trimLChars l with
  | nil => simp [trimRChars, trimLChars, h]
  | cons c t =>
    have hc : goIsSpace c = false := dropWhile_eq_cons_head_false h
    rw [trimRChars_cons_of_not_space hc]
    simp [trimLChars, List.dropWhile, hc]

theorem trimRChars_idem (l : List Char) :
    trimRChars (trimRChars l) = trimRChars l := by
  unfold trimRChars
  rw [List.reverse_reverse, dropWhile_dropWhile]

theorem goTrimSpace_idem (s : String) :
    goTrimSpace (goTrimSpace s) = goTrimSpace s := by
  unfold goTrimSpace
  show (⟨trimRChars (trimLChars (trimRChars (trimLChars s.data)))⟩ : String) = _
  rw [trimL_trimR_trimL, trimRChars_idem]

theorem goTrimPre_of_not_pre {s pre : String} (h : goHasPre s pre = false) :
    goTrimPre s pre = s := by
  unfold goTrimPre
  simp [h]

theorem goTrimSuf_of_not_suf {s suf : String} (h : goHasSuf s suf = false) :
    goTrimSuf s suf = s := by
  unfold goTrimSuf
  simp [h]

/-! ## The greedy line diff of `main.go` (`diffLines`, `generateUnifiedDiff`)

The Go function scans both line slices in lockstep with two indices.  Each
outer iteration runs three inner loops: a common run (context lines), a
deletion run (old lines differing from the fixed current new line, or all
remaining old lines when the new side is exhausted), and an addition run
(symmetrically).  The pieces of one iteration are named below; `diffLinesGo`
is the outer loop with an explicit iteration bound that is always sufficient
(each iteration consumes at least one line). -/

/-- Tag of one hunk line: context `" "`, deletion `"-"`, or addition `"+"`.
The Go code stores the already-rendered string; `renderTagged` recovers it. -/
inductive Tag
  | ctx
  | del
  | add
deriving DecidableEq, Repr

/-- Go struct `diffChunk`: 1-based start lines, run lengths, tagged lines. -/
structure DiffChunk where
  oldStart : Nat
  oldLines : Nat
  newStart : Nat
  newLines : Nat
  lines : List (Tag × String)
deriving DecidableEq, Repr

/-- The rendered form of a tagged line, exactly as `diffLines` stores it. -/
def renderTagged : Tag × String → String
  | (Tag.ctx, l) => " " ++ l
  | (Tag.del, l) => "-" ++ l
  | (Tag.add, l) => "+" ++ l

/-- First inner loop: the maximal common run and the two remainders. -/
def splitCommon : List String → List String → List String × List String × List String
  | a :: as, b :: bs =>
    if a = b then
      let r := splitCommon as bs
      (a :: r.1, r.2.1, r.2.2)
    else ([], a :: as, b :: bs)
  | as, bs => ([], as, bs)

/-- Second inner loop: old lines deleted at this divergence.  The new-side
index is fixed during this loop: when the new side is exhausted every
remaining old line is deleted, otherwise old lines are consumed while they
differ from the current new line. -/
def delRun (old1 new1 : List String) : List String :=
  match new1 with
  | [] => old1
  | b :: _ => old1.takeWhile (fun a => a ≠ b)

/-- Third inner loop: new lines added at this divergence (symmetric). -/
def addRun (old2 new1 : List String) : List String :=
  match old2 with
  | [] => new1
  | a :: _ => new1.takeWhile (fun b => b ≠ a)

/-- The common run of one outer iteration. -/
def ctxRun (old new : List String) : List String := (splitCommon old new).1

/-- Old-side remainder after the common run. -/
def oldRest (old new : List String) : List String := (splitCommon old new).2.1

/-- New-side remainder after the common run. -/
def newRest (old new : List String) : List String := (splitCommon old new).2.2

/-- The deletion run of one outer iteration. -/
def dRun (old new : List String) : List String := delRun (oldRest old new) (newRest old new)

/-- Old-side remainder after the deletion run. -/
def oldRest2 (old new : List String) : List String :=
  (oldRest old new).drop (dRun old new).length

/-- The addition run of one outer iteration. -/
def aRun (old new : List String) : List String := addRun (oldRest2 old new) (newRest old new)

/-- New-side remainder after the addition run. -/
def newRest2 (old new : List String) : List String :=
  (newRest old new).drop (aRun old new).length

/-- The tagged lines of one outer iteration's chunk, in emission order:
context, then deletions, then additions. -/
def chunkLines (old new : List String) : List (Tag × String) :=
  (ctxRun old new).map (fun l => (Tag.ctx, l)) ++
  (dRun old new).map (fun l => (Tag.del, l)) ++
  (aRun old new).map (fun l => (Tag.add, l))

/-- The outer loop of `diffLines`.  `fuel` bounds the number of iterations;
`diffLines` passes `old.length + new.length`, which is always enough because
every iteration consumes at least one line from one of the two sides.  As in
the Go code, a chunk is appended only when it has at least one line, its
start fields are the 1-based indices at the start of the iteration, and its
`oldLines`/`newLines` fields count only the deletion/addition runs. -/
def diffLinesGo : Nat → List String → List String → Nat → Nat → List DiffChunk
  | 0, _, _, _, _ => []
  | fuel + 1, old, new, oi, ni =>
    if old.isEmpty && new.isEmpty then []
    else
      let rest := diffLinesGo fuel (oldRest2 old new) (newRest2 old new)
        (oi + (ctxRun old new).length + (dRun old new).length)
        (ni + (ctxRun old new).length + (aRun old new).length)
      if (chunkLines old new).isEmpty then rest
      else
        { oldStart := oi + 1, oldLines := (dRun old new).length,
          newStart := ni + 1, newLines := (aRun old new).length,
          lines := chunkLines old new } :: rest

/-- Go `diffLines(oldLines, newLines)`. -/
def diffLines (oldLines newLines : List String) : List DiffChunk :=
  diffLinesGo (oldLines.length + newLines.length) oldLines newLines 0 0

/-- Keep context and addition lines (drop deletions): the new-side view. -/
def plusSel (tl : Tag × String) : Option String :=
  if tl.1 = Tag.del then none else some tl.2

/-- Keep context and deletion lines (drop additions): the old-side view. -/
def minusSel (tl : Tag × String) : Option String :=
  if tl.1 = Tag.add then none else some tl.2

/-- Reconstruction of the new content's lines from the emitted hunks. -/
def plusTexts (cs : List DiffChunk) : List String :=
  cs.flatMap (fun c => c.lines.filterMap plusSel)

/-- Reconstruction of the old content's lines from the emitted hunks. -/
def minusTexts (cs : List DiffChunk) : List String :=
  cs.flatMap (fun c => c.lines.filterMap minusSel)

/-- The `@@ -a,b +c,d @@` hunk header line written by `generateUnifiedDiff`. -/
def hunkHeader (c : DiffChunk) : String :=
  "@@ -" ++ toString c.oldStart ++ "," ++ toString c.oldLines ++
  " +" ++ toString c.newStart ++ "," ++ toString c.newLines ++ " @@\n"

/-- Go `generateUnifiedDiff`: header lines then every chunk of `diffLines`,
each rendered as its hunk header followed by its tagged lines. -/
def generateUnifiedDiff (filePath oldContent newContent : String) : String :=
  "diff --git a/" ++ filePath ++ " b/" ++ filePath ++ "\n" ++
  "--- a/" ++ filePath ++ "\n" ++
  "+++ b/" ++ filePath ++ "\n" ++
  concatAll ((diffLines (splitNl oldContent) (splitNl newContent)).map
    (fun c => hunkHeader c ++ concatAll (c.lines.map (fun tl => renderTagged tl ++ "\n"))))

/-! ### Round-trip lemmas for the greedy diff -/

theorem takeWhile_append_drop {α : Type} (p : α → Bool) (l : List α) :
    l.takeWhile p ++ l.drop (l.takeWhile p).length = l := by
  induction l with
  | nil => rfl
  | cons c cs ih =>
    by_cases h : p c
    · simp only [List.takeWhile_cons, h, if_pos, List.length_cons, List.drop_succ_cons,
        List.cons_append]
      rw [ih]
    · simp [List.takeWhile_cons, h]

theorem splitCommon_old : ∀ (a b : List String),
    a = (splitCommon a b).1 ++ (splitCommon a b).2.1
  | [], b => by simp [splitCommon]
  | a :: as, [] => by simp [splitCommon]
  | a :: as, b :: bs => by
    by_cases h : a = b
    · have ih := splitCommon_old as bs
      simp only [splitCommon, if_pos h, List.cons_append]
      rw [← ih]
    · simp [splitCommon, h]

theorem splitCommon_new : ∀ (a b : List String),
    b = (splitCommon a b).1 ++ (splitCommon a b).2.2
  | [], b => by simp [splitCommon]
  | a :: as, [] => by simp [splitCommon]
  | a :: as, b :: bs => by
    by_cases h : a = b
    · have ih := splitCommon_new as bs
      simp only [splitCommon, if_pos h, List.cons_append]
      rw [← ih, h]
    · simp [splitCommon, h]

theorem splitCommon_heads : ∀ (a b : List String) {x y : String} {xs ys : List String},
    (splitCommon a b).2.1 = x :: xs → (splitCommon a b).2.2 = y :: ys → x ≠ y
  | [], b => by
    intro h1 h2
    simp [splitCommon] at h1
  | a :: as, [] => by
    intro h1 h2
    simp [splitCommon] at h2
  | a :: as, b :: bs => by
    intro h1 h2
    by_cases h : a = b
    · simp only [splitCommon, if_pos h] at h1 h2
      exact splitCommon_heads as bs h1 h2
    · simp only [splitCommon, if_neg h] at h1 h2
      cases h1
      cases h2
      exact h

theorem delRun_decomp (o1 n1 : List String) :
    o1 = delRun o1 n1 ++ o1.drop (delRun o1 n1).length := by
  cases n1 with
  | nil => simp [delRun]
  | cons b bs => exact (takeWhile_append_drop _ o1).symm

theorem addRun_decomp (o2 n1 : List String) :
    n1 = addRun o2 n1 ++ n1.drop (addRun o2 n1).length := by
  cases o2 with
  | nil => simp [addRun]
  | cons a as => exact (takeWhile_append_drop _ n1).symm

theorem old_decomp (old new : List String) :
    old = ctxRun old new ++ (dRun old new ++ oldRest2 old new) := by
  have h1 := splitCommon_old old new
  have h2 := delRun_decomp (oldRest old new) (newRest old new)
  exact h1.trans (congrArg (fun t => ctxRun old new ++ t) h2)

theorem new_decomp (old new : List String) :
    new = ctxRun old new ++ (aRun old new ++ newRest2 old new) := by
  have h1 := splitCommon_new old new
  have h2 := addRun_decomp (oldRest2 old new) (newRest old new)
  exact h1.trans (congrArg (fun t => ctxRun old new ++ t) h2)

theorem ctxRun_nil_oldRest {old new : List String} (h : ctxRun old new = []) :
    oldRest old new = old := by
  have := splitCommon_old old new
  unfold ctxRun at h
  unfold oldRest
  rw [h] at this
  exact this.symm

theorem ctxRun_nil_newRest {old new : List String} (h : ctxRun old new = []) :
    newRest old new = new := by
  have := splitCommon_new old new
  unfold ctxRun at h
  unfold newRest
  rw [h] at this
  exact this.symm

theorem chunkLines_ne_nil (old new : List String) (h : ¬(old = [] ∧ new = [])) :
    chunkLines old new ≠ [] := by
  intro hl
  have hruns : ctxRun old new = [] ∧ dRun old new = [] ∧ aRun old new = [] := by
    simpa [chunkLines] using hl
  obtain ⟨hc, hd, ha⟩ := hruns
  have ho : oldRest old new = old := ctxRun_nil_oldRest hc
  have hn : newRest old new = new := ctxRun_nil_newRest hc
  cases hold : old with
  | nil =>
    cases hnew : new with
    | nil => exact h ⟨hold, hnew⟩
    | cons y ys =>
      have ho2 : oldRest2 old new = [] := by
        unfold oldRest2
        rw [ho, hold]
        simp
      have : aRun old new = y :: ys := by
        unfold aRun
        rw [ho2, hn, hnew]
        rfl
      rw [this] at ha
      cases ha
  | cons x xs =>
    cases hnr : newRest old new with
    | nil =>
      have : dRun old new = old := by
        unfold dRun
        rw [hnr, ho]
        rfl
      rw [this, hold] at hd
      cases hd
    | cons y ys =>
      have h1 : oldRest old new = x :: xs := by rw [ho, hold]
      have hxy : x ≠ y := splitCommon_heads old new h1 hnr
      have : dRun old new = (x :: xs).takeWhile (fun a => a ≠ y) := by
        unfold dRun
        rw [hnr, ho, hold]
        rfl
      rw [this] at hd
      simp [List.takeWhile_cons, hxy] at hd

theorem step_decrease (old new : List String) (h : ¬(old = [] ∧ new = [])) :
    (oldRest2 old new).length + (newRest2 old new).length < old.length + new.length := by
  have ho := congrArg List.length (old_decomp old new)
  have hn := congrArg List.length (new_decomp old new)
  simp only [List.length_append] at ho hn
  have hne := chunkLines_ne_nil old new h
  have hpos : ctxRun old new ≠ [] ∨ dRun old new ≠ [] ∨ aRun old new ≠ [] := by
    by_contra hcon
    push_neg at hcon
    exact hne (by simp [chunkLines, hcon.1, hcon.2.1, hcon.2.2])
  have key : 0 < (ctxRun old new).length ∨ 0 < (dRun old new).length ∨
      0 < (aRun old new).length := by
    rcases hpos with hp | hp | hp
    · exact Or.inl (List.length_pos.mpr hp)
    · exact Or.inr (Or.inl (List.length_pos.mpr hp))
    · exact Or.inr (Or.inr (List.length_pos.mpr hp))
  omega

theorem filterMap_tagged_keep (f : String → Tag × String) (sel : Tag × String → Option String)
    (hsel : ∀ l, sel (f l) = some l) : ∀ xs : List String, (xs.map f).filterMap sel = xs := by
  intro xs
  induction xs with
  | nil => rfl
  | cons a t ih => simp [List.filterMap_cons, hsel, ih]

theorem filterMap_tagged_drop (f : String → Tag × String) (sel : Tag × String → Option String)
    (hsel : ∀ l, sel (f l) = none) : ∀ xs : List String, (xs.map f).filterMap sel = [] := by
  intro xs
  induction xs with
  | nil => rfl
  | cons a t ih => simp [List.filterMap_cons, hsel, ih]

theorem chunk_filterMap_plus (old new : List String) :
    (chunkLines old new).filterMap plusSel = ctxRun old new ++ aRun old new := by
  unfold chunkLines
  rw [List.filterMap_append, List.filterMap_append]
  rw [filterMap_tagged_keep _ _ (fun l => by simp [plusSel]),
    filterMap_tagged_drop _ _ (fun l => by simp [plusSel]),
    filterMap_tagged_keep _ _ (fun l => by simp [plusSel]),
    List.append_nil]

theorem chunk_filterMap_minus (old new : List String) :
    (chunkLines old new).filterMap minusSel = ctxRun old new ++ dRun old new := by
  unfold chunkLines
  rw [List.filterMap_append, List.filterMap_append]
  rw [filterMap_tagged_keep _ _ (fun l => by simp [minusSel]),
    filterMap_tagged_keep _ _ (fun l => by simp [minusSel]),
    filterMap_tagged_drop _ _ (fun l => by simp [minusSel]),
    List.append_nil]

theorem diffLinesGo_roundtrip (fuel : Nat) : ∀ (old new : List String) (oi ni : Nat),
    old.length + new.length ≤ fuel →
    plusTexts (diffLinesGo fuel old new oi ni) = new ∧
    minusTexts (diffLinesGo fuel old new oi ni) = old := by
  induction fuel with
  | zero =>
    intro old new oi ni h
    have ho : old = [] := List.eq_nil_of_length_eq_zero (by omega)
    have hn : new = [] := List.eq_nil_of_length_eq_zero (by omega)
    subst ho
    subst hn
    simp [diffLinesGo, plusTexts, minusTexts]
  | succ fuel ih =>
    intro old new oi ni h
    by_cases hg : old = [] ∧ new = []
    · obtain ⟨ho, hn⟩ := hg
      subst ho
      subst hn
      simp [diffLinesGo, plusTexts, minusTexts]
    · have hgb : (old.isEmpty && new.isEmpty) = false := by
        rcases not_and_or.mp hg with hp | hp <;> cases old <;> cases new <;> simp_all
      have hne := chunkLines_ne_nil old new hg
      have hnee : (chunkLines old new).isEmpty = false := by
        cases hcl : chunkLines old new with
        | nil => exact absurd hcl hne
        | cons a t => simp
      have hdec := step_decrease old new hg
      have hfuel : (oldRest2 old new).length + (newRest2 old new).length ≤ fuel := by omega
      have ihr := ih (oldRest2 old new) (newRest2 old new)
        (oi + (ctxRun old new).length + (dRun old new).length)
        (ni + (ctxRun old new).length + (aRun old new).length) hfuel
      rw [diffLinesGo]
      simp only [hgb, Bool.false_eq_true, if_false, hnee]
      constructor
      · show plusTexts (_ :: _) = new
        rw [plusTexts, List.flatMap_cons]
        show (chunkLines old new).filterMap plusSel ++ plusTexts _ = new
        rw [chunk_filterMap_plus, ihr.1, List.append_assoc]
        exact (new_decomp old new).symm
      · show minusTexts (_ :: _) = old
        rw [minusTexts, List.flatMap_cons]
        show (chunkLines old new).filterMap minusSel ++ minusTexts _ = old
        rw [chunk_filterMap_minus, ihr.2, List.append_assoc]
        exact (old_decomp old new).symm

/-- C1: round-trip of the greedy unified diff.  For any old/new contents of a
Modified path, take the hunks that `generateUnifiedDiff` emits (the chunks of
`diffLines` over the `"\n"`-split line lists).  Applying their context and
addition lines in order (skipping deletions) and re-joining with `"\n"`
reproduces the new content exactly; applying context and deletion lines
reproduces the old content. -/
theorem c1_diff_roundtrip (oldContent newContent : String) :
    joinNl (plusTexts (diffLines (splitNl oldContent) (splitNl newContent))) = newContent ∧
    joinNl (minusTexts (diffLines (splitNl oldContent) (splitNl newContent))) = oldContent := by
  have h := diffLinesGo_roundtrip ((splitNl oldContent).length + (splitNl newContent).length)
    (splitNl oldContent) (splitNl newContent) 0 0 le_rfl
  unfold diffLines
  exact ⟨by rw [h.1, joinNl_splitNl], by rw [h.2, joinNl_splitNl]⟩

/-- C4 counterexample: at the scenario input (old `"a\nb\nc\n"`, new
`"a\nx\nc\n"`) the single emitted hunk has old-range start 1 and length 3 and
new-range start 1 and length 3, not the claimed start 2 and length 1 on both
sides. -/
theorem c4_counterexample :
    (diffLines (splitNl "a\nb\nc\n") (splitNl "a\nx\nc\n")).map
        (fun c => (c.oldStart, c.oldLines, c.newStart, c.newLines)) = [(1, 3, 1, 3)] ∧
    ¬ ((diffLines (splitNl "a\nb\nc\n") (splitNl "a\nx\nc\n")).map
        (fun c => (c.oldStart, c.oldLines, c.newStart, c.newLines)) = [(2, 1, 2, 1)]) := by
  constructor
  · decide
  · decide

/-- C4 amended: at the scenario input the fragment contains exactly one hunk,
with old-range start 1 length 3 and new-range start 1 length 3; its tagged
lines are the context line `a`, then the deletions `-b`, `-c`, `-` (the
greedy scan deletes the whole old tail because `c` differs from the current
new line `x`), then the additions `+x`, `+c`, `+` (the trailing empty line
comes from splitting the trailing newline). -/
theorem c4_scenario_hunk :
    diffLines (splitNl "a\nb\nc\n") (splitNl "a\nx\nc\n") =
      [{ oldStart := 1, oldLines := 3, newStart := 1, newLines := 3,
         lines := [(Tag.ctx, "a"), (Tag.del, "b"), (Tag.del, "c"), (Tag.del, ""),
                   (Tag.add, "x"), (Tag.add, "c"), (Tag.add, "")] }] := by
  decide

/-! ## The staged-diff builder (`getStagedDiff` and helpers)

Repository reads are passed in as oracle functions: `headContent p` is the
result of `getStagedFileContent` (the last-committed content; the Go helper
returns `""` when the path is absent from the HEAD tree and an error
otherwise), and `worktreeContent p` is the working-copy read, `none` when
`worktree.Filesystem.Open`/`ReadAll` fails.  The third-party
`difflib.GetUnifiedDiffString` call inside `getModifiedPatch` is not part of
this repository; it is passed in as a pure function `udiff path A B`.
Go iterates the status map with `range`, whose order is unspecified, so the
iteration order is an explicit argument (a list of entries). -/

/-- Maximum characters for each file's diff (Go `maxFileDiffSize`). -/
def maxFileDiffSize : Nat := 8000

/-- Maximum characters for previewing added files (Go `maxAddedFilePreview`). -/
def maxAddedFilePreview : Nat := 5000

/-- The extension denylist (Go map `excludedExtensions`). -/
def excludedExtensions : List String :=
  [".pdf", ".jpg", ".jpeg", ".png", ".gif", ".zip", ".tar", ".gz", ".exe",
   ".dll", ".so", ".dylib", ".class", ".pyc", ".jar", ".war", ".ear", ".sum"]

/-- Go `filepath.Ext`: the suffix starting at the last dot in the last
slash-separated element of the path; empty when that element has no dot. -/
def goExt (p : String) : String :=
  let rev := p.data.reverse
  let seg := rev.takeWhile (fun c => c ≠ '/')
  if seg.contains '.' then ⟨('.' :: (seg.takeWhile (fun c => c ≠ '.')).reverse)⟩ else ""

/-- ASCII lowering, the fragment of Go `strings.ToLower` relevant to
extension matching (the denylist is ASCII). -/
def goToLower (s : String) : String :=
  ⟨s.data.map (fun c => if 'A' ≤ c && c ≤ 'Z' then Char.ofNat (c.toNat + 32) else c)⟩

/-- The staging codes of interest from `git.Status` (`other` stands for every
code that falls into the `default: continue` branch). -/
inductive Staging
  | added
  | modified
  | deleted
  | other
deriving DecidableEq, Repr

/-- One entry of the worktree status map. -/
structure Entry where
  path : String
  staging : Staging
deriving DecidableEq, Repr

/-- The repository read oracles (see the section comment). -/
structure Repo where
  headContent : String → Except String String
  worktreeContent : String → Option String

/-- Go `getUnstagedFileContent`: a working-copy read, failing when the open
or read fails. -/
def getUnstagedFileContent (repo : Repo) (p : String) : Except String String :=
  match repo.worktreeContent p with
  | none => Except.error ("opening file: " ++ p)
  | some c => Except.ok c

/-- Go `shouldExcludeFile`: excluded when the lowered extension is
denylisted, or the working-copy content cannot be read (assume binary), or
the content contains a null byte. -/
def shouldExcludeFile (repo : Repo) (p : String) : Bool :=
  if excludedExtensions.contains (goToLower (goExt p)) then true
  else
    match repo.worktreeContent p with
    | none => true
    | some content => content.data.contains (Char.ofNat 0)

/-- The one-line placeholder written for an excluded path. -/
def excludedLine (p : String) : String :=
  "Excluded file: " ++ p ++ " (binary or large data file)\n"

/-- Go slicing `content[:max]` takes a byte range; at the character level,
take characters while their UTF-8 size fits the remaining budget. -/
def takeBytes : List Char → Nat → List Char
  | [], _ => []
  | c :: cs, n => if c.utf8Size ≤ n then c :: takeBytes cs (n - c.utf8Size) else []

/-- Go `strings.Count(content, "\n")`. -/
def countNl (s : String) : Nat :=
  s.data.countP (fun c => c = '\n')

/-- Go `getAddedPatch`: header, then either a `(preview)` hunk of the first
`maxPreview` bytes plus a truncation note, or one hunk with every line
prefixed `+`. -/
def getAddedPatch (repo : Repo) (p : String) (maxPreview : Nat) : Except String String := do
  let content ← (getUnstagedFileContent repo p).mapError
    (fun e => "getting file content: " ++ e)
  let hdr := "diff --git a/" ++ p ++ " b/" ++ p ++ "\n" ++
    "new file mode 100644\n" ++
    "--- /dev/null\n" ++
    "+++ b/" ++ p ++ "\n"
  if utf8Len content > maxPreview then
    let preview : String := ⟨takeBytes content.data maxPreview⟩
    let lineCount := countNl content + 1
    pure (hdr ++ "@@ -0,0 +1," ++ toString lineCount ++ " @@ (preview)\n" ++
      concatAll ((splitNl preview).map (fun l => "+" ++ l ++ "\n")) ++
      "\n... (file truncated, total " ++ toString (utf8Len content) ++ " characters) ...\n")
  else
    let lineCount := countNl content + 1
    pure (hdr ++ "@@ -0,0 +1," ++ toString lineCount ++ " @@\n" ++
      concatAll ((splitNl content).map (fun l => "+" ++ l ++ "\n")))

/-- Go `getModifiedPatch`: both contents are read, then the third-party
difflib unified diff (the `udiff` parameter) is wrapped under a
`diff --git` line. -/
def getModifiedPatch (repo : Repo) (udiff : String → String → String → String)
    (p : String) : Except String String := do
  let staged ← (repo.headContent p).mapError (fun e => "getting staged content: " ++ e)
  let unstaged ← (getUnstagedFileContent repo p).mapError
    (fun e => "getting unstaged content: " ++ e)
  pure ("diff --git a/" ++ p ++ " b/" ++ p ++ "\n" ++ udiff p staged unstaged)

/-- The text of a deletion patch: header, one hunk spanning all split lines,
every line prefixed `-`. -/
def deletedPatchText (p content : String) : String :=
  "diff --git a/" ++ p ++ " b/" ++ p ++ "\n" ++
  "deleted file mode 100644\n" ++
  "--- a/" ++ p ++ "\n" ++
  "+++ /dev/null\n" ++
  "@@ -1," ++ toString (splitNl content).length ++ " +0,0 @@\n" ++
  concatAll ((splitNl content).map (fun l => "-" ++ l ++ "\n"))

/-- Go `getDeletedPatch`: renders the last-committed content as a deletion. -/
def getDeletedPatch (repo : Repo) (p : String) : Except String String := do
  let content ← (repo.headContent p).mapError (fun e => "getting file content: " ++ e)
  pure (deletedPatchText p content)

/-- The line loop of Go `truncatePatch`: the first two lines and every line
starting with `@@` are written unconditionally; any other line is written
only while it fits the budget, and the first line that does not fit stops
the whole loop (Go `break`), dropping everything after it. -/
def truncLoop (maxSize : Nat) : Nat → Nat → List String → String
  | _, _, [] => ""
  | i, size, l :: ls =>
    if i < 2 || goHasPre l "@@" then
      l ++ "\n" ++ truncLoop maxSize (i + 1) (size + utf8Len l + 1) ls
    else if size + utf8Len l + 1 > maxSize then ""
    else l ++ "\n" ++ truncLoop maxSize (i + 1) (size + utf8Len l + 1) ls

/-- Go `truncatePatch(patch, maxSize) (string, bool)`. -/
def truncatePatch (patch : String) (maxSize : Nat) : String × Bool :=
  if utf8Len patch ≤ maxSize then (patch, false)
  else (truncLoop maxSize 0 0 (splitNl patch), true)

/-- The truncation block of `getStagedDiff`, as written.  In the Go source

```
if fileStatus.Staging != git.Added && len(patch) > maxFileDiffSize {
    patch, truncated := g.truncatePatch(patch, maxFileDiffSize)
    if truncated {
        patch += fmt.Sprintf("... total %d ...", len(patch))
    }
}
```

the `:=` declares a NEW `patch` variable scoped to the `if` block, shadowing
the outer one; the truncated value (and the appended note, which cites the
length of the already-truncated inner `patch`) is discarded when the block
ends, and the outer, untruncated `patch` is what gets written. -/
def shadowedTruncationStep (st : Staging) (patch : String) : String :=
  if st ≠ Staging.added ∧ utf8Len patch > maxFileDiffSize then
    let inner := truncatePatch patch maxFileDiffSize
    let _innerPatch :=
      if inner.2 then
        inner.1 ++ "\n... (truncated, total " ++ toString (utf8Len inner.1) ++ " characters) ...\n"
      else inner.1
    patch
  else patch

/-- One iteration of the status loop in Go `getStagedDiff`: the exclusion
check runs first; then the staging switch picks the patch builder (`other`
is the `default: continue` branch, contributing nothing); an error aborts
the whole build; otherwise the (dead) truncation step runs and the patch is
appended. -/
def processEntry (repo : Repo) (udiff : String → String → String → String)
    (e : Entry) : Except String String :=
  if shouldExcludeFile repo e.path then Except.ok (excludedLine e.path)
  else
    let res :=
      match e.staging with
      | Staging.added => getAddedPatch repo e.path maxAddedFilePreview
      | Staging.modified => getModifiedPatch repo udiff e.path
      | Staging.deleted => getDeletedPatch repo e.path
      | Staging.other => Except.ok ""
    match res with
    | Except.error msg => Except.error ("generating patch for " ++ e.path ++ ": " ++ msg)
    | Except.ok patch => Except.ok (shadowedTruncationStep e.staging patch)

/-- Go `getStagedDiff`, over a given enumeration order of the status map:
concatenates each entry's contribution, aborting on the first error. -/
def getStagedDiff (repo : Repo) (udiff : String → String → String → String) :
    List Entry → Except String String
  | [] => Except.ok ""
  | e :: es => do
    let frag ← processEntry repo udiff e
    let rest ← getStagedDiff repo udiff es
    pure (frag ++ rest)

/-! ### Structure lemmas for emitted fragments -/

theorem str_append_empty (s : String) : s ++ "" = s := by
  cases s with
  | mk d =>
    show (⟨d ++ []⟩ : String) = ⟨d⟩
    rw [List.append_nil]

theorem utf8Len_append (a b : String) : utf8Len (a ++ b) = utf8Len a + utf8Len b := by
  unfold utf8Len
  rw [String.data_append, List.map_append, List.sum_append]

theorem utf8Len_mk_replicate (n : Nat) (c : Char) :
    utf8Len ⟨List.replicate n c⟩ = n * c.utf8Size := by
  unfold utf8Len
  show ((List.replicate n c).map Char.utf8Size).sum = n * c.utf8Size
  rw [List.map_replicate]
  induction n with
  | zero => simp
  | succ n ih => simp [List.replicate_succ, ih, Nat.succ_mul, Nat.add_comm]

theorem splitNlChars_no_nl {l : List Char} (h : ∀ c ∈ l, c ≠ '\n') :
    splitNlChars l = [l] := by
  induction l with
  | nil => rfl
  | cons c cs ih =>
    have hc : c ≠ '\n' := h c (List.mem_cons_self c cs)
    unfold splitNlChars
    simp only [hc, if_false]
    rw [ih (fun x hx => h x (List.mem_cons_of_mem c hx))]

theorem splitNl_no_nl {s : String} (h : ∀ c ∈ s.data, c ≠ '\n') :
    splitNl s = [s] := by
  unfold splitNl
  rw [splitNlChars_no_nl h]
  cases s
  rfl

theorem splitNlChars_append_nl {a : List Char} (b : List Char)
    (ha : ∀ c ∈ a, c ≠ '\n') :
    splitNlChars (a ++ '\n' :: b) = a :: splitNlChars b := by
  induction a with
  | nil => simp [splitNlChars]
  | cons c cs ih =>
    have hc : c ≠ '\n' := ha c (List.mem_cons_self c cs)
    rw [List.cons_append]
    conv_lhs => rw [splitNlChars]
    simp only [hc, if_false]
    rw [ih (fun x hx => ha x (List.mem_cons_of_mem c hx))]

theorem mem_splitNlChars_no_nl (l : List Char) :
    ∀ x ∈ splitNlChars l, ∀ c ∈ x, c ≠ '\n' := by
  induction l with
  | nil =>
    intro x hx
    simp [splitNlChars] at hx
    simp [hx]
  | cons a as ih =>
    intro x hx
    unfold splitNlChars at hx
    by_cases ha : a = '\n'
    · simp only [ha, if_pos rfl] at hx
      rcases List.mem_cons.mp hx with h1 | h1
      · simp [h1]
      · exact ih x h1
    · simp only [ha, if_false] at hx
      cases hs : splitNlChars as with
      | nil => exact absurd hs (splitNlChars_ne_nil as)
      | cons r rs =>
        rw [hs] at hx
        rcases List.mem_cons.mp hx with h1 | h1
        · subst h1
          intro c hc
          rcases List.mem_cons.mp hc with h2 | h2
          · simpa [h2] using ha
          · exact ih r (by rw [hs]; exact List.mem_cons_self r rs) c h2
        · exact ih x (by rw [hs]; exact List.mem_cons_of_mem r h1)

theorem concatAll_data (ss : List String) :
    (concatAll ss).data = (ss.map String.data).flatten := by
  induction ss with
  | nil => rfl
  | cons x t ih =>
    show (x ++ concatAll t).data = _
    rw [String.data_append, ih]
    rfl

theorem splitNlChars_concat_tagged (tag : Char) (htag : tag ≠ '\n') :
    ∀ (xs : List (List Char)), (∀ x ∈ xs, ∀ c ∈ x, c ≠ '\n') →
    splitNlChars ((xs.map (fun x => tag :: (x ++ ['\n']))).flatten) =
      xs.map (fun x => tag :: x) ++ [[]] := by
  intro xs
  induction xs with
  | nil => intro h; rfl
  | cons x t ih =>
    intro h
    have hx : ∀ c ∈ x, c ≠ '\n' := h x (List.mem_cons_self x t)
    have ht := ih (fun y hy => h y (List.mem_cons_of_mem x hy))
    simp only [List.map_cons, List.flatten_cons]
    have harr : (tag :: (x ++ ['\n'])) ++ (t.map (fun x => tag :: (x ++ ['\n']))).flatten =
        (tag :: x) ++ '\n' :: (t.map (fun x => tag :: (x ++ ['\n']))).flatten := by
      simp
    rw [harr, splitNlChars_append_nl _ (by
      intro c hc
      rcases List.mem_cons.mp hc with h1 | h1
      · rw [h1]; exact htag
      · exact hx c h1), ht]
    rw [List.cons_append]

theorem splitNl_concat_tagged (tag : Char) (htag : tag ≠ '\n') (xs : List String)
    (h : ∀ x ∈ xs, ∀ c ∈ x.data, c ≠ '\n') :
    splitNl (concatAll (xs.map (fun l => (⟨[tag]⟩ : String) ++ l ++ "\n"))) =
      xs.map (fun l => (⟨[tag]⟩ : String) ++ l) ++ [""] := by
  unfold splitNl
  have hdata : (concatAll (xs.map (fun l => (⟨[tag]⟩ : String) ++ l ++ "\n"))).data =
      ((xs.map String.data).map (fun x => tag :: (x ++ ['\n']))).flatten := by
    rw [concatAll_data, List.map_map, List.map_map]
    have hfun2 : (String.data ∘ fun l : String => (⟨[tag]⟩ : String) ++ l ++ "\n") =
        ((fun x => tag :: (x ++ ['\n'])) ∘ String.data) :=
      funext fun l => by cases l; rfl
    rw [hfun2]
  rw [hdata, splitNlChars_concat_tagged tag htag _ (by
    intro x hx
    rcases List.mem_map.mp hx with ⟨l, hl, rfl⟩
    exact h l hl)]
  have hfun : (fun l : String => String.mk (tag :: l.data)) =
      fun l : String => (⟨[tag]⟩ : String) ++ l :=
    funext fun l => by cases l; rfl
  rw [List.map_append, List.map_map, List.map_map]
  show xs.map (fun l : String => String.mk (tag :: l.data)) ++ [""] = _
  rw [hfun]

theorem shadowedTruncationStep_id (st : Staging) (patch : String) :
    shadowedTruncationStep st patch = patch := by
  unfold shadowedTruncationStep
  split <;> rfl

/-- C3: a staged deletion that reaches patch generation (is not excluded)
contributes exactly `deletedPatchText`, whatever the content's length: the
fragment written into the document is never truncated, because the
truncation block's result is assigned to a shadowed variable and discarded.
The fragment body splits back into one `-`-prefixed line per field of the
`"\n"`-split last-committed content, in order (plus the final empty field of
the trailing newline), all under the single `@@ -1,n +0,0 @@` hunk emitted
by `getDeletedPatch`. -/
theorem c3_deleted_full_content (repo : Repo) (udiff : String → String → String → String)
    (p content : String)
    (hex : shouldExcludeFile repo p = false)
    (hc : repo.headContent p = Except.ok content) :
    processEntry repo udiff { path := p, staging := Staging.deleted } =
      Except.ok (deletedPatchText p content) ∧
    splitNl (concatAll ((splitNl content).map (fun l => "-" ++ l ++ "\n"))) =
      (splitNl content).map (fun l => "-" ++ l) ++ [""] := by
  constructor
  · unfold processEntry
    simp only [hex, Bool.false_eq_true, if_false]
    simp [getDeletedPatch, hc, Except.mapError, shadowedTruncationStep_id]
  · have hmem : ∀ x ∈ splitNl content, ∀ c ∈ x.data, c ≠ '\n' := by
      intro x hx
      rcases List.mem_map.mp hx with ⟨y, hy, rfl⟩
      exact mem_splitNlChars_no_nl content.data y hy
    exact splitNl_concat_tagged '-' (by decide) (splitNl content) hmem

/-- Witness for C3 at a concrete two-line deleted file. -/
theorem c3_witness :
    processEntry
      { headContent := fun _ => Except.ok "a\nb", worktreeContent := fun _ => some "x" }
      (fun _ _ _ => "") { path := "f.txt", staging := Staging.deleted } =
      Except.ok (deletedPatchText "f.txt" "a\nb") := by
  exact (c3_deleted_full_content _ _ "f.txt" "a\nb" (by decide) rfl).1

/-- C9: any entry whose working-copy content cannot be read — in particular
a staged deletion whose file is gone from the working tree — is excluded
before its patch builder runs: the document receives only the one-line
placeholder for that path, and no error is propagated. -/
theorem c9_unreadable_worktree_excluded (repo : Repo)
    (udiff : String → String → String → String) (e : Entry)
    (h : repo.worktreeContent e.path = none) :
    processEntry repo udiff e = Except.ok (excludedLine e.path) ∧
    getStagedDiff repo udiff [e] = Except.ok (excludedLine e.path) := by
  have hex : shouldExcludeFile repo e.path = true := by
    unfold shouldExcludeFile
    by_cases hct : excludedExtensions.contains (goToLower (goExt e.path)) = true
    · simp only [hct, if_pos]
    · simp [hct, h]
  have h1 : processEntry repo udiff e = Except.ok (excludedLine e.path) := by
    unfold processEntry
    simp [hex]
  refine ⟨h1, ?_⟩
  have h2 : getStagedDiff repo udiff [e] =
      (processEntry repo udiff e).bind (fun frag => Except.ok (frag ++ "")) := rfl
  rw [h2, h1]
  show Except.ok (excludedLine e.path ++ "") = _
  rw [str_append_empty]

/-- Witness for C9 at a concrete deleted entry with an unreadable file. -/
theorem c9_witness :
    processEntry { headContent := fun _ => Except.ok "", worktreeContent := fun _ => none }
      (fun _ _ _ => "") { path := "gone.txt", staging := Staging.deleted } =
      Except.ok (excludedLine "gone.txt") := by
  exact (c9_unreadable_worktree_excluded _ _ _ rfl).1

/-- C2 fails on the code (dead truncation): for a staged deletion of
`big.txt` (removed from the index but kept in the working tree, so the
exclusion check passes) whose last-committed content is 9000 `a`s, the
rendered fragment exceeds `maxFileDiffSize` and the code's own
`truncatePatch` predicate fires, yet the document receives the full,
untruncated fragment with no truncation note: the Go `:=` inside the
truncation `if` block shadows `patch`, so the truncated value is discarded. -/
theorem c2_truncation_dead_code :
    getStagedDiff
        { headContent := fun _ => Except.ok ⟨List.replicate 9000 'a'⟩,
          worktreeContent := fun _ => some "x" }
        (fun _ _ _ => "")
        [{ path := "big.txt", staging := Staging.deleted }] =
      Except.ok (deletedPatchText "big.txt" ⟨List.replicate 9000 'a'⟩) ∧
    utf8Len (deletedPatchText "big.txt" ⟨List.replicate 9000 'a'⟩) > maxFileDiffSize ∧
    (truncatePatch (deletedPatchText "big.txt" ⟨List.replicate 9000 'a'⟩) maxFileDiffSize).2
      = true := by
  have hnl : ∀ c ∈ (⟨List.replicate 9000 'a'⟩ : String).data, c ≠ '\n' := by
    intro c hcm
    have hce : c = 'a' := List.eq_of_mem_replicate hcm
    rw [hce]
    decide
  have hsplit : splitNl (⟨List.replicate 9000 'a'⟩ : String) =
      [⟨List.replicate 9000 'a'⟩] := splitNl_no_nl hnl
  have hlen : utf8Len (⟨List.replicate 9000 'a'⟩ : String) = 9000 := by
    rw [utf8Len_mk_replicate]
    decide
  have hbig : utf8Len (deletedPatchText "big.txt" ⟨List.replicate 9000 'a'⟩) >
      maxFileDiffSize := by
    unfold deletedPatchText
    rw [hsplit, utf8Len_append]
    have hb : utf8Len (concatAll
        (([(⟨List.replicate 9000 'a'⟩ : String)]).map (fun l => "-" ++ l ++ "\n"))) =
        9002 := by
      show utf8Len (("-" ++ (⟨List.replicate 9000 'a'⟩ : String) ++ "\n") ++ "") = 9002
      rw [utf8Len_append, utf8Len_append, utf8Len_append, hlen]
      decide
    rw [hb]
    have : maxFileDiffSize = 8000 := rfl
    omega
  refine ⟨?_, hbig, ?_⟩
  · have hex : shouldExcludeFile
        { headContent := fun _ => Except.ok ⟨List.replicate 9000 'a'⟩,
          worktreeContent := fun _ => some "x" } "big.txt" = false := by
      decide
    have h1 : processEntry
        { headContent := fun _ => Except.ok ⟨List.replicate 9000 'a'⟩,
          worktreeContent := fun _ => some "x" }
        (fun _ _ _ => "") { path := "big.txt", staging := Staging.deleted } =
        Except.ok (shadowedTruncationStep Staging.deleted
          (deletedPatchText "big.txt" ⟨List.replicate 9000 'a'⟩)) := rfl
    rw [shadowedTruncationStep_id] at h1
    have h2 : getStagedDiff
        { headContent := fun _ => Except.ok ⟨List.replicate 9000 'a'⟩,
          worktreeContent := fun _ => some "x" }
        (fun _ _ _ => "")
        [{ path := "big.txt", staging := Staging.deleted }] =
        (processEntry
          { headContent := fun _ => Except.ok ⟨List.replicate 9000 'a'⟩,
            worktreeContent := fun _ => some "x" }
          (fun _ _ _ => "") { path := "big.txt", staging := Staging.deleted }).bind
            (fun frag => Except.ok (frag ++ "")) := rfl
    rw [h2, h1]
    show Except.ok (deletedPatchText "big.txt" ⟨List.replicate 9000 'a'⟩ ++ "") = _
    rw [str_append_empty]
  · unfold truncatePatch
    have : ¬ (utf8Len (deletedPatchText "big.txt" ⟨List.replicate 9000 'a'⟩) ≤
        maxFileDiffSize) := by omega
    rw [if_neg this]

/-- Concatenation of per-entry results, aborting at the first error:
the shape of the document as the ordered concatenation of fragments. -/
def exceptConcat : List (Except String String) → Except String String
  | [] => Except.ok ""
  | r :: rs => do
    let f ← r
    let rest ← exceptConcat rs
    pure (f ++ rest)

theorem getStagedDiff_eq_exceptConcat (repo : Repo)
    (udiff : String → String → String → String) :
    ∀ o : List Entry,
    getStagedDiff repo udiff o = exceptConcat (o.map (processEntry repo udiff)) := by
  intro o
  induction o with
  | nil => rfl
  | cons e es ih =>
    show (do
      let frag ← processEntry repo udiff e
      let rest ← getStagedDiff repo udiff es
      pure (frag ++ rest)) = _
    rw [ih]
    rfl

/-- C10 counterexample: Go iterates the status map with `range`, whose order
is unspecified and varies between runs.  For a fixed repository state with
two staged entries, the two enumeration orders of the same status map
produce different diff documents (here, the two exclusion placeholders in
opposite orders). -/
theorem c10_counterexample :
    (([{ path := "a.txt", staging := Staging.deleted },
       { path := "b.txt", staging := Staging.deleted }] : List Entry).Perm
      [{ path := "b.txt", staging := Staging.deleted },
       { path := "a.txt", staging := Staging.deleted }]) ∧
    getStagedDiff { headContent := fun _ => Except.ok "", worktreeContent := fun _ => none }
        (fun _ _ _ => "")
        [{ path := "a.txt", staging := Staging.deleted },
         { path := "b.txt", staging := Staging.deleted }] ≠
      getStagedDiff { headContent := fun _ => Except.ok "", worktreeContent := fun _ => none }
        (fun _ _ _ => "")
        [{ path := "b.txt", staging := Staging.deleted },
         { path := "a.txt", staging := Staging.deleted }] := by
  constructor
  · decide
  · intro hEq
    have h1 : getStagedDiff
        { headContent := fun _ => Except.ok "", worktreeContent := fun _ => none }
        (fun _ _ _ => "")
        [{ path := "a.txt", staging := Staging.deleted },
         { path := "b.txt", staging := Staging.deleted }] =
        Except.ok (excludedLine "a.txt" ++ (excludedLine "b.txt" ++ "")) := rfl
    have h2 : getStagedDiff
        { headContent := fun _ => Except.ok "", worktreeContent := fun _ => none }
        (fun _ _ _ => "")
        [{ path := "b.txt", staging := Staging.deleted },
         { path := "a.txt", staging := Staging.deleted }] =
        Except.ok (excludedLine "b.txt" ++ (excludedLine "a.txt" ++ "")) := rfl
    rw [h1, h2] at hEq
    have h3 := Except.ok.inj hEq
    exact absurd h3 (by decide)

/-- C10 amended: the diff builder is deterministic given the enumeration
order of the status map: the document is exactly the ordered concatenation
of the per-entry results, each a fixed function of the repository state, and
any two enumeration orders of the same entries yield the same per-entry
results up to permutation. -/
theorem c10_deterministic_up_to_order (repo : Repo)
    (udiff : String → String → String → String) (o1 o2 : List Entry)
    (h : o1.Perm o2) :
    getStagedDiff repo udiff o1 = exceptConcat (o1.map (processEntry repo udiff)) ∧
    (o1.map (processEntry repo udiff)).Perm (o2.map (processEntry repo udiff)) :=
  ⟨getStagedDiff_eq_exceptConcat repo udiff o1, h.map _⟩

/-- Witness for the amended C10 at a concrete two-entry state. -/
theorem c10_witness :
    (([{ path := "a.txt", staging := Staging.deleted },
       { path := "b.txt", staging := Staging.deleted }] : List Entry).map
      (processEntry { headContent := fun _ => Except.ok "", worktreeContent := fun _ => none }
        (fun _ _ _ => ""))).Perm
    (([{ path := "b.txt", staging := Staging.deleted },
       { path := "a.txt", staging := Staging.deleted }] : List Entry).map
      (processEntry { headContent := fun _ => Except.ok "", worktreeContent := fun _ => none }
        (fun _ _ _ => ""))) := by
  exact (c10_deterministic_up_to_order _ _ _ _ (by decide)).2

/-! ## The message generator

`lazyGenerateCommitMessage` (the Gemini→Groq→OpenAI variant) tries each
backend whose key is configured, in that fixed order, once each.  The
transport-and-parse part of one attempt (HTTP call, JSON decode, choice
extraction) is the oracle `raw b model`; the pure post-processing tail that
`generateCommitMessage` and the Gemini variant share is `cleanMessage`.
The second component of the result is the trace of attempted backends. -/

/-- The boilerplate lead-in phrases stripped by the post-processing. -/
def prefixesToRemove : List String :=
  ["Here is the generated commit message:",
   "Here is the generated commit message:\n",
   "以下がコミットメッセージです:",
   "以下がコミットメッセージです:\n",
   "Generated commit message:",
   "Generated commit message:\n"]

/-- The post-processing tail of `generateCommitMessage`: trim, strip the
known boilerplate lead-ins, trim, strip one leading and one trailing fence
marker, trim again. -/
def cleanMessage (raw : String) : String :=
  let m1 := goTrimSpace raw
  let m2 := prefixesToRemove.foldl (fun acc pre => goTrimPre acc pre) m1
  let m3 := goTrimSpace m2
  let m4 := goTrimPre m3 "```"
  let m5 := goTrimSuf m4 "```"
  goTrimSpace m5

/-- The threshold from the source comment: llama3-70b-8192 has an 8192-token
limit, ≈ 4 characters per token. -/
def llama3ContextLimit : Nat := 8192 * 4

/-- The Groq model selection inside `lazyGenerateCommitMessage`: the
preferred llama3-70b-8192 for diffs within its budget, mixtral-8x7b-32768
for longer diffs. -/
def selectGroqModel (diff : String) : String :=
  if utf8Len diff > llama3ContextLimit then "mixtral-8x7b-32768"
  else "llama3-70b-8192"

/-- Context-window sizes in tokens of the two Groq models, as documented by
the model-name suffixes and the source comment (llama3-70b-8192: 8192
tokens; mixtral-8x7b-32768: 32768 tokens). -/
def groqContextTokens (model : String) : Nat :=
  if model = "llama3-70b-8192" then 8192
  else if model = "mixtral-8x7b-32768" then 32768
  else 0

/-- The three completion backends, in priority order. -/
inductive Backend
  | gemini
  | groq
  | openai
deriving DecidableEq, Repr

/-- The terminal error when no configured backend succeeded. -/
def allFailedMsg : String := "all available APIs failed to generate commit message"

/-- The model identifier each backend is called with. -/
def modelFor (diff : String) : Backend → String
  | Backend.gemini => "gemini-1.5-flash"
  | Backend.groq => selectGroqModel diff
  | Backend.openai => "gpt-4o-mini-2024-07-18"

/-- One backend attempt: oracle transport plus the pure cleanup tail. -/
def attemptOf (raw : Backend → String → Except String String) (diff : String)
    (b : Backend) : Except String String :=
  (raw b (modelFor diff b)).map cleanMessage

/-- The OpenAI tail of `lazyGenerateCommitMessage`: attempted whenever its
key is set, returning its own result (success or failure); with no key left
the all-backends-failed error is returned. -/
def tryOpenAI (openaiKey : String) (raw : Backend → String → Except String String)
    (diff : String) : Except String String × List Backend :=
  if openaiKey ≠ "" then (attemptOf raw diff Backend.openai, [Backend.openai])
  else (Except.error allFailedMsg, [])

/-- The Groq leg: attempted when its key is set; on failure control falls
through to OpenAI; an unset key skips straight to OpenAI. -/
def tryGroq (groqKey openaiKey : String) (raw : Backend → String → Except String String)
    (diff : String) : Except String String × List Backend :=
  if groqKey ≠ "" then
    match attemptOf raw diff Backend.groq with
    | Except.ok r => (Except.ok r, [Backend.groq])
    | Except.error _ =>
      let rest := tryOpenAI openaiKey raw diff
      (rest.1, Backend.groq :: rest.2)
  else tryOpenAI openaiKey raw diff

/-- Go `lazyGenerateCommitMessage`: Gemini first when configured, then Groq,
then OpenAI; the first success is returned and later backends are not
contacted; each backend is attempted at most once. -/
def lazyGenerateCommitMessage (geminiKey groqKey openaiKey : String)
    (raw : Backend → String → Except String String) (diff : String) :
    Except String String × List Backend :=
  if geminiKey ≠ "" then
    match attemptOf raw diff Backend.gemini with
    | Except.ok r => (Except.ok r, [Backend.gemini])
    | Except.error _ =>
      let rest := tryGroq groqKey openaiKey raw diff
      (rest.1, Backend.gemini :: rest.2)
  else tryGroq groqKey openaiKey raw diff

/-- Which backends are configured (have a non-empty key). -/
def isConfigured (geminiKey groqKey openaiKey : String) : Backend → Bool
  | Backend.gemini => geminiKey ≠ ""
  | Backend.groq => groqKey ≠ ""
  | Backend.openai => openaiKey ≠ ""

/-- The configured backends in priority order. -/
def configuredList (geminiKey groqKey openaiKey : String) : List Backend :=
  [Backend.gemini, Backend.groq, Backend.openai].filter
    (isConfigured geminiKey groqKey openaiKey)

/-- Correctness of an ordered-fallback run over the configured list `cfg`:
the trace is a prefix of `cfg`; on overall failure every configured backend
was attempted, in order, and every attempt failed; on success the last
attempted backend produced exactly the returned (cleaned) text and every
earlier attempt failed. -/
def FallbackSpec (raw : Backend → String → Except String String) (diff : String)
    (cfg : List Backend) (out : Except String String × List Backend) : Prop :=
  (∃ rest, cfg = out.2 ++ rest) ∧
  (∀ e, out.1 = Except.error e →
    out.2 = cfg ∧ ∀ b ∈ cfg, ∃ e', attemptOf raw diff b = Except.error e') ∧
  (∀ r, out.1 = Except.ok r →
    ∃ b, out.2.getLast? = some b ∧ attemptOf raw diff b = Except.ok r ∧
      ∀ b' ∈ out.2.dropLast, ∃ e', attemptOf raw diff b' = Except.error e')

theorem fallbackSpec_nil (raw : Backend → String → Except String String)
    (diff : String) (m : String) :
    FallbackSpec raw diff [] (Except.error m, []) := by
  refine ⟨⟨[], rfl⟩, ?_, ?_⟩
  · intro e _
    exact ⟨rfl, by intro b hb; simp at hb⟩
  · intro r hr
    exact Except.noConfusion hr

theorem fallbackSpec_single (raw : Backend → String → Except String String)
    (diff : String) (b : Backend) :
    FallbackSpec raw diff [b] (attemptOf raw diff b, [b]) := by
  refine ⟨⟨[], rfl⟩, ?_, ?_⟩
  · intro e he
    refine ⟨rfl, ?_⟩
    intro b' hb'
    rw [List.mem_singleton.mp hb']
    exact ⟨e, he⟩
  · intro r hr
    exact ⟨b, rfl, hr, by intro b' hb'; simp at hb'⟩

theorem fallbackSpec_success (raw : Backend → String → Except String String)
    (diff : String) (b : Backend) (cfg : List Backend) (r : String)
    (hb : attemptOf raw diff b = Except.ok r) :
    FallbackSpec raw diff (b :: cfg) (Except.ok r, [b]) := by
  refine ⟨⟨cfg, rfl⟩, ?_, ?_⟩
  · intro e he
    exact Except.noConfusion he
  · intro r' hr'
    have hrr : r = r' := Except.ok.inj hr'
    subst hrr
    exact ⟨b, rfl, hb, by intro b' hb'; simp at hb'⟩

theorem fallbackSpec_step (raw : Backend → String → Except String String)
    (diff : String) (b : Backend) (cfg : List Backend)
    (out : Except String String × List Backend)
    (e0 : String) (hb : attemptOf raw diff b = Except.error e0)
    (h : FallbackSpec raw diff cfg out) :
    FallbackSpec raw diff (b :: cfg) (out.1, b :: out.2) := by
  obtain ⟨⟨rest, hrest⟩, herr, hok⟩ := h
  refine ⟨⟨rest, by rw [List.cons_append, ← hrest]⟩, ?_, ?_⟩
  · intro e he
    obtain ⟨htr, hall⟩ := herr e he
    refine ⟨by rw [htr], ?_⟩
    intro b' hb'
    rcases List.mem_cons.mp hb' with hbe | hmem
    · rw [hbe]
      exact ⟨e0, hb⟩
    · exact hall b' hmem
  · intro r hr
    obtain ⟨bl, hlast, hattempt, hprev⟩ := hok r hr
    have hne : out.2 ≠ [] := by
      intro hnil
      rw [hnil] at hlast
      simp at hlast
    obtain ⟨x, xs, hxs⟩ := List.exists_cons_of_ne_nil hne
    refine ⟨bl, ?_, hattempt, ?_⟩
    · rw [hxs, List.getLast?_cons_cons, ← hxs]
      exact hlast
    · intro b' hb'
      rw [hxs, List.dropLast_cons₂, ← hxs] at hb'
      rcases List.mem_cons.mp hb' with hbe | hmem
      · rw [hbe]
        exact ⟨e0, hb⟩
      · exact hprev b' hmem

theorem tryOpenAI_spec (gk qk okKey : String)
    (raw : Backend → String → Except String String) (diff : String) :
    FallbackSpec raw diff ([Backend.openai].filter (isConfigured gk qk okKey))
      (tryOpenAI okKey raw diff) := by
  by_cases ho : okKey = ""
  · have hcfg : [Backend.openai].filter (isConfigured gk qk okKey) = [] := by
      simp [isConfigured, ho]
    rw [hcfg]
    unfold tryOpenAI
    rw [if_neg (by simp [ho])]
    exact fallbackSpec_nil raw diff allFailedMsg
  · have hcfg : [Backend.openai].filter (isConfigured gk qk okKey) = [Backend.openai] := by
      simp [isConfigured, ho]
    rw [hcfg]
    unfold tryOpenAI
    rw [if_pos ho]
    exact fallbackSpec_single raw diff Backend.openai

theorem tryGroq_spec (gk qk okKey : String)
    (raw : Backend → String → Except String String) (diff : String) :
    FallbackSpec raw diff
      ([Backend.groq, Backend.openai].filter (isConfigured gk qk okKey))
      (tryGroq qk okKey raw diff) := by
  by_cases hq : qk = ""
  · have hcfg : [Backend.groq, Backend.openai].filter (isConfigured gk qk okKey) =
        [Backend.openai].filter (isConfigured gk qk okKey) := by
      simp [List.filter_cons, isConfigured, hq]
    rw [hcfg]
    unfold tryGroq
    rw [if_neg (by simp [hq])]
    exact tryOpenAI_spec gk qk okKey raw diff
  · have hcfg : [Backend.groq, Backend.openai].filter (isConfigured gk qk okKey) =
        Backend.groq :: [Backend.openai].filter (isConfigured gk qk okKey) := by
      simp [List.filter_cons, isConfigured, hq]
    rw [hcfg]
    unfold tryGroq
    rw [if_pos hq]
    cases hA : attemptOf raw diff Backend.groq with
    | ok r => exact fallbackSpec_success raw diff Backend.groq _ r hA
    | error e0 =>
      exact fallbackSpec_step raw diff Backend.groq _ (tryOpenAI okKey raw diff) e0 hA
        (tryOpenAI_spec gk qk okKey raw diff)

/-- C5: the generator tries the configured backends in the fixed priority
order Gemini, Groq, OpenAI, at most once each (the trace is a sublist of the
priority list and a prefix of the configured list); on overall failure every
configured backend was attempted and failed — in particular the
all-backends-failed error only arises with every configured backend failed —
and on success the returned text is exactly the cleaned text of the last
attempted backend, all earlier attempts having failed and no later backend
having been contacted. -/
theorem c5_backend_priority_fallback (gk qk okKey : String)
    (raw : Backend → String → Except String String) (diff : String) :
    ((lazyGenerateCommitMessage gk qk okKey raw diff).2).Sublist
        [Backend.gemini, Backend.groq, Backend.openai] ∧
    FallbackSpec raw diff (configuredList gk qk okKey)
      (lazyGenerateCommitMessage gk qk okKey raw diff) := by
  have hmain : FallbackSpec raw diff (configuredList gk qk okKey)
      (lazyGenerateCommitMessage gk qk okKey raw diff) := by
    by_cases hg : gk = ""
    · have hcfg : configuredList gk qk okKey =
          [Backend.groq, Backend.openai].filter (isConfigured gk qk okKey) := by
        simp [configuredList, List.filter_cons, isConfigured, hg]
      rw [hcfg]
      unfold lazyGenerateCommitMessage
      rw [if_neg (by simp [hg])]
      exact tryGroq_spec gk qk okKey raw diff
    · have hcfg : configuredList gk qk okKey =
          Backend.gemini :: [Backend.groq, Backend.openai].filter (isConfigured gk qk okKey) := by
        simp [configuredList, List.filter_cons, isConfigured, hg]
      rw [hcfg]
      unfold lazyGenerateCommitMessage
      rw [if_pos hg]
      cases hA : attemptOf raw diff Backend.gemini with
      | ok r => exact fallbackSpec_success raw diff Backend.gemini _ r hA
      | error e0 =>
        exact fallbackSpec_step raw diff Backend.gemini _ (tryGroq qk okKey raw diff) e0 hA
          (tryGroq_spec gk qk okKey raw diff)
  refine ⟨?_, hmain⟩
  obtain ⟨rest, hrest⟩ := hmain.1
  have h1 : ((lazyGenerateCommitMessage gk qk okKey raw diff).2).Sublist
      (configuredList gk qk okKey) := by
    rw [hrest]
    exact List.sublist_append_left _ _
  exact h1.trans (List.filter_sublist _)

/-- Witness for C5: with all three keys set and every transport failing, the
trace is exactly the configured list in priority order. -/
theorem c5_witness :
    (lazyGenerateCommitMessage "g" "q" "o" (fun _ _ => Except.error "boom") "d").2 =
      configuredList "g" "q" "o" := by
  have h := c5_backend_priority_fallback "g" "q" "o" (fun _ _ => Except.error "boom") "d"
  exact (h.2.2.1 "boom" (by rfl)).1

/-- The observable outcome of one program run. -/
structure RunOutcome where
  exitCode : Nat
  stdoutText : String
  stderrLines : List String
  backendTrace : List Backend
deriving DecidableEq, Repr

/-- Go `main`: a constructor error or diff error aborts with a diagnostic on
standard error and exit code 1; an empty diff document aborts with
`No staged changes found.` before the message generator is invoked;
otherwise the generator runs and its text is printed (exit 0) or its error
reported (exit 1).  `backendTrace` records the backend attempts made. -/
def mainRun (initRes : Except String Unit) (diffRes : Except String String)
    (gk qk okKey : String) (raw : Backend → String → Except String String) :
    RunOutcome :=
  match initRes with
  | Except.error e =>
    { exitCode := 1, stdoutText := "", stderrLines := ["Error: " ++ e], backendTrace := [] }
  | Except.ok _ =>
    match diffRes with
    | Except.error e =>
      { exitCode := 1, stdoutText := "", stderrLines := ["Error: " ++ e], backendTrace := [] }
    | Except.ok diff =>
      if diff = "" then
        { exitCode := 1, stdoutText := "",
          stderrLines := ["No staged changes found."], backendTrace := [] }
      else
        match lazyGenerateCommitMessage gk qk okKey raw diff with
        | (Except.error e, tr) =>
          { exitCode := 1, stdoutText := "",
            stderrLines := ["Error generating commit message: " ++ e], backendTrace := tr }
        | (Except.ok msg, tr) =>
          { exitCode := 0, stdoutText := msg, stderrLines := [], backendTrace := tr }

/-- C6: when the built diff document is the empty string, the run reports
the empty-change-set condition on standard error, exits non-zero, and makes
zero backend calls: the message generator is never invoked. -/
theorem c6_empty_diff_aborts_without_backend_calls (gk qk okKey : String)
    (raw : Backend → String → Except String String) :
    mainRun (Except.ok ()) (Except.ok "") gk qk okKey raw =
      { exitCode := 1, stdoutText := "",
        stderrLines := ["No staged changes found."], backendTrace := [] } := rfl

/-- C7 counterexample: the cleanup sequence is not idempotent.  On
`"x``````"` one application strips only one trailing fence layer (yielding
`"x```"`), and a second application strips another (yielding `"x"`). -/
theorem c7_counterexample :
    cleanMessage "x``````" = "x```" ∧
    cleanMessage (cleanMessage "x``````") = "x" ∧
    cleanMessage (cleanMessage "x``````") ≠ cleanMessage "x``````" := by
  refine ⟨by decide, by decide, by decide⟩

theorem foldl_goTrimPre_id (ps : List String) (t : String)
    (h : ∀ pre ∈ ps, goHasPre t pre = false) :
    ps.foldl (fun acc pre => goTrimPre acc pre) t = t := by
  induction ps with
  | nil => rfl
  | cons p pt ih =>
    show pt.foldl (fun acc pre => goTrimPre acc pre) (goTrimPre t p) = t
    rw [goTrimPre_of_not_pre (h p (List.mem_cons_self p pt))]
    exact ih (fun pre hp => h pre (List.mem_cons_of_mem p hp))

/-- C7 amended: the cleanup sequence is idempotent exactly on the stable
outputs: whenever the once-processed text no longer starts with a fence
marker or a boilerplate lead-in and no longer ends with a fence marker, a
second application changes nothing (in general a second pass can strip a
further fence layer, see the counterexample). -/
theorem c7_clean_idempotent_on_stable (s : String)
    (h1 : goHasPre (cleanMessage s) "```" = false)
    (h2 : goHasSuf (cleanMessage s) "```" = false)
    (h3 : ∀ pre ∈ prefixesToRemove, goHasPre (cleanMessage s) pre = false) :
    cleanMessage (cleanMessage s) = cleanMessage s := by
  have htrim : goTrimSpace (cleanMessage s) = cleanMessage s := by
    unfold cleanMessage
    exact goTrimSpace_idem _
  conv_lhs => rw [cleanMessage]
  rw [htrim, foldl_goTrimPre_id _ _ h3, htrim,
    goTrimPre_of_not_pre h1, goTrimSuf_of_not_suf h2, htrim]

/-- Witness for the amended C7 at a stable input. -/
theorem c7_witness : cleanMessage (cleanMessage "abc") = cleanMessage "abc" := by
  exact c7_clean_idempotent_on_stable "abc" (by decide) (by decide) (by decide)

/-- C8 counterexample: a diff longer than the 8192 × 4 threshold selects
`mixtral-8x7b-32768`, whose context window (32768 tokens) is larger — not
smaller — than that of the model selected below the threshold
(`llama3-70b-8192`, 8192 tokens). -/
theorem c8_counterexample :
    selectGroqModel ⟨List.replicate 40000 'a'⟩ = "mixtral-8x7b-32768" ∧
    selectGroqModel "short diff" = "llama3-70b-8192" ∧
    ¬ (groqContextTokens (selectGroqModel ⟨List.replicate 40000 'a'⟩) <
        groqContextTokens (selectGroqModel "short diff")) := by
  have hlen : utf8Len (⟨List.replicate 40000 'a'⟩ : String) = 40000 := by
    rw [utf8Len_mk_replicate]
    decide
  have hgt : utf8Len (⟨List.replicate 40000 'a'⟩ : String) > llama3ContextLimit := by
    rw [hlen]
    decide
  have hsel : selectGroqModel ⟨List.replicate 40000 'a'⟩ = "mixtral-8x7b-32768" := by
    unfold selectGroqModel
    rw [if_pos hgt]
  have hshort : selectGroqModel "short diff" = "llama3-70b-8192" := by decide
  refine ⟨hsel, hshort, ?_⟩
  rw [hsel, hshort]
  decide

/-- C8 amended: the Groq model is chosen by a static lookup on the diff's
character length against the fixed 8192 × 4 threshold (the preferred model's
token budget at the documented ≈ 4 characters per token): above it the
alternative larger-context variant `mixtral-8x7b-32768` (32768-token window)
is selected, otherwise the preferred `llama3-70b-8192` (8192-token window). -/
theorem c8_static_model_lookup (diff : String) :
    (utf8Len diff > llama3ContextLimit →
      selectGroqModel diff = "mixtral-8x7b-32768" ∧
      groqContextTokens (selectGroqModel diff) = 32768) ∧
    (utf8Len diff ≤ llama3ContextLimit →
      selectGroqModel diff = "llama3-70b-8192" ∧
      groqContextTokens (selectGroqModel diff) = 8192) := by
  constructor
  · intro h
    have hs : selectGroqModel diff = "mixtral-8x7b-32768" := by
      unfold selectGroqModel
      rw [if_pos h]
    exact ⟨hs, by rw [hs]; decide⟩
  · intro h
    have hs : selectGroqModel diff = "llama3-70b-8192" := by
      unfold selectGroqModel
      rw [if_neg (by omega)]
    exact ⟨hs, by rw [hs]; decide⟩

/-- Witness for the amended C8 at a short diff. -/
theorem c8_witness : selectGroqModel "d" = "llama3-70b-8192" := by
  exact ((c8_static_model_lookup "d").2 (by decide)).1
